import Mathlib

/-!
Verification development for the matrix-factorization trainer in
src/MatrixFactorization/mf.py.

Shallow embedding choices:
* 64-bit floats are modelled by exact rationals (ℚ); the operations used
  by the program (+, -, *, /, squaring, sums) are exact on the inputs the
  claims quantify over, except that rational division by zero yields 0
  where IEEE arithmetic yields NaN (this is flagged where it matters).
* A pandas dataframe of ratings is a list of (userId, movieId, rating)
  triples together with an optional Prediction column (written in place by
  sparse_multiply); mutation is made explicit by returning the new frame.
* scipy.sparse.csc_matrix((data, (rows, cols)), shape) is modelled by
  csc_matrix below: construction fails (ValueError in scipy) when an index
  is out of range, duplicate (row, col) entries are accumulated by
  summation (COO to CSC conversion sums duplicates), and the stored
  pattern is the set of distinct (row, col) pairs of the input.
* pandas Series.unique returns the distinct values in order of first
  occurrence; the name2idx dictionary of proc_col is a finite map modelled
  as a function into Option ℕ.
-/

namespace MF

section Encoding

variable {α : Type} {β : Type} [DecidableEq α] [DecidableEq β]

/-- Distinct elements of a list in order of first occurrence, skipping the
elements already seen.  Model of the traversal pandas Series.unique
performs. -/
def uniqueFrom (seen : List α) : List α → List α
  | [] => []
  | x :: xs => if x ∈ seen then uniqueFrom seen xs else x :: uniqueFrom (x :: seen) xs

/-- Model of col.unique() in proc_col (mf.py line 11): distinct values in
first-occurrence order. -/
def uniqueList (l : List α) : List α := uniqueFrom [] l

/-- Position of the first occurrence of x in a list; this is the value the
dictionary name2idx = \x7bo: i for i, o in enumerate(uniq)\x7d associates to a
key x of uniq. -/
def idxIn : List α → α → ℕ
  | [], _ => 0
  | y :: ys, x => if y = x then 0 else idxIn ys x + 1

/-- Model of the name2idx dictionary built by proc_col (mf.py line 12):
defined exactly on the values occurring in the column, returning the index
of the key in the first-occurrence unique list. -/
def name2idx (col : List α) (x : α) : Option ℕ :=
  if x ∈ uniqueList col then some (idxIn (uniqueList col) x) else none

/-- Embedding of proc_col (mf.py lines 6-13): returns the key-to-index
map, the column translated through it, and the number of distinct keys. -/
def proc_col (col : List α) : (α → Option ℕ) × List ℕ × ℕ :=
  (name2idx col, col.map (fun x => idxIn (uniqueList col) x), (uniqueList col).length)

/-- Embedding of encode_new_data (mf.py lines 32-43): rebuild the training
maps, keep only validation rows whose userId and movieId both occur in the
training maps (pandas isin filter), then translate the kept rows through
the training maps (pandas Series.replace with a dictionary). -/
def encode_new_data (dfVal dfTrain : List (α × β × ℚ)) : List (ℕ × ℕ × ℚ) :=
  (dfVal.filter (fun r =>
      decide (r.1 ∈ uniqueList (dfTrain.map (fun s => s.1))) &&
      decide (r.2.1 ∈ uniqueList (dfTrain.map (fun s => s.2.1))))).map
    (fun r => (idxIn (uniqueList (dfTrain.map (fun s => s.1))) r.1,
               idxIn (uniqueList (dfTrain.map (fun s => s.2.1))) r.2.1, r.2.2))

end Encoding

/-- Dense matrices (numpy 2-d arrays) are total functions from row and
column index to an exact rational; the shape is carried separately where a
claim needs it. -/
abbrev Mat : Type := ℕ → ℕ → ℚ

/-- Length-K dot product of two rows, the reduction np.sum(u * v) over the
K factors. -/
def dot (K : ℕ) (u v : ℕ → ℚ) : ℚ := ∑ k ∈ Finset.range K, u k * v k

/-- The (userId, movieId) index pair of a dataframe row. -/
def pairOf (t : ℕ × ℕ × ℚ) : ℕ × ℕ := (t.1, t.2.1)

/-- All rows of a triple table that target the position p. -/
def rowsAt (ts : List (ℕ × ℕ × ℚ)) (p : ℕ × ℕ) : List (ℕ × ℕ × ℚ) :=
  ts.filter (fun t => pairOf t == p)

/-- Stored value at position p of the sparse matrix built from the triple
table ts: the sum of the values of all rows targeting p (scipy sums
duplicate entries on COO to CSC conversion). -/
def cooVal (ts : List (ℕ × ℕ × ℚ)) (p : ℕ × ℕ) : ℚ :=
  ((rowsAt ts p).map (fun t => t.2.2)).sum

/-- A scipy sparse matrix: shape, stored pattern (the set of positions
that carry a stored entry, explicit zeros included), and entry values.
The val field of every matrix built below vanishes outside pat. -/
structure SpMat where
  nrows : ℕ
  ncols : ℕ
  pat : Finset (ℕ × ℕ)
  val : ℕ × ℕ → ℚ

/-- Embedding of sparse.csc_matrix((values, (ind_user, ind_movie)),
shape=(nr, nc)): fails (scipy raises ValueError, modelled none) when some
index reaches its bound, otherwise stores the distinct position pairs with
duplicate values summed. -/
def csc_matrix (ts : List (ℕ × ℕ × ℚ)) (nr nc : ℕ) : Option SpMat :=
  if ts.all (fun t => decide (t.1 < nr) && decide (t.2.1 < nc)) then
    some { nrows := nr, ncols := nc, pat := (ts.map pairOf).toFinset, val := cooVal ts }
  else none

/-- Number of stored entries of a sparse matrix (scipy attribute nnz). -/
def SpMat.nnz (A : SpMat) : ℕ := A.pat.card

/-- Sparse subtraction A - B (scipy operates on the union pattern). -/
def SpMat.sub (A B : SpMat) : SpMat :=
  { nrows := A.nrows, ncols := A.ncols, pat := A.pat ∪ B.pat,
    val := fun p => A.val p - B.val p }

/-- Elementwise square of stored entries, scipy csc_matrix.power(A, 2). -/
def SpMat.power2 (A : SpMat) : SpMat :=
  { A with val := fun p => A.val p ^ 2 }

/-- Sum of all stored entries, np.sum over a sparse matrix. -/
def SpMat.sumAll (A : SpMat) : ℚ := ∑ p ∈ A.pat, A.val p

/-- Sparse-matrix-times-dense-matrix product A * M (matrix product, the
meaning of * between a scipy sparse matrix and a numpy array). -/
def SpMat.mulDense (A : SpMat) (M : Mat) : Mat :=
  fun i k => ∑ j ∈ Finset.range A.ncols, A.val (i, j) * M j k

/-- Transpose of a sparse matrix, np.transpose. -/
def SpMat.transpose (A : SpMat) : SpMat :=
  { nrows := A.ncols, ncols := A.nrows, pat := A.pat.image (fun p => (p.2, p.1)),
    val := fun p => A.val (p.2, p.1) }

/-- A ratings dataframe: the encoded (userId, movieId, rating) rows and
the Prediction column when one has been written (none before the first
call to sparse_multiply touches the frame). -/
structure DF where
  rows : List (ℕ × ℕ × ℚ)
  predCol : Option (List ℚ)
  deriving DecidableEq

/-- Embedding of df2matrix (mf.py lines 64-72) with the default rating
column: build the sparse rating matrix from the (userId, movieId, rating)
triples. -/
def df2matrix (df : DF) (nr nc : ℕ) : Option SpMat := csc_matrix df.rows nr nc

/-- The values written into the Prediction column by sparse_multiply
(mf.py line 80): per row, the dot product of the user and movie embedding
rows. -/
def predictionCol (K : ℕ) (U V : Mat) (df : DF) : List ℚ :=
  df.rows.map (fun t => dot K (U t.1) (V t.2.1))

/-- The triples df2matrix reads when called on the Prediction column:
the index pairs of the frame paired with the freshly written dot
products. -/
def predTriples (K : ℕ) (U V : Mat) (df : DF) : List (ℕ × ℕ × ℚ) :=
  df.rows.map (fun t => (t.1, t.2.1, dot K (U t.1) (V t.2.1)))

/-- Embedding of sparse_multiply (mf.py lines 75-81): writes the
Prediction column into the dataframe (in-place in Python; the mutated
frame is returned first here) and builds the sparse prediction matrix from
it with shape (number of user embedding rows, number of movie embedding
rows). -/
def sparse_multiply (df : DF) (K nU nM : ℕ) (U V : Mat) : DF × Option SpMat :=
  ({ rows := df.rows, predCol := some (predictionCol K U V df) },
   csc_matrix (predTriples K U V df) nU nM)

/-- Embedding of cost (mf.py lines 84-104).  The outer Option is the
exception channel (none models a raised ValueError); the inner Option ℚ is
the Python return value (cost returns None when df is None).  On success
the mutated dataframe is returned alongside.  The division by nnz is total
on ℚ: for nnz = 0 Python produces NaN silently, modelled by the rational
0 / 0 = 0 - in neither case is an error condition raised. -/
def cost (dfOpt : Option DF) (K nU nM : ℕ) (U V : Mat) : Option (Option DF × Option ℚ) :=
  match dfOpt with
  | none => some (none, none)
  | some df =>
    match df2matrix df nU nM, sparse_multiply df K nU nM U V with
    | some Y, (df', some P) =>
        some (some df', some (((Y.sub P).power2).sumAll / (Y.nnz : ℚ)))
    | _, _ => none

/-- Embedding of gradient (mf.py lines 125-145): N = Y.nnz, the residual
Y - pred on the shared pattern, grad_user = -2 * (Y - pred) * emb_movie / N
and grad_movie = -2 * transpose(Y - pred) * emb_user / N, where * against
the dense embedding is the matrix product.  none models the IndexError /
ValueError raised on an out-of-range index; the mutated dataframe is
returned alongside. -/
def gradient (df : DF) (Y : SpMat) (K nU nM : ℕ) (U V : Mat) :
    Option (DF × Mat × Mat) :=
  match sparse_multiply df K nU nM U V with
  | (df', some P) =>
      some (df',
        fun i k => -2 * ((Y.sub P).mulDense V) i k / (Y.nnz : ℚ),
        fun j k => -2 * (((Y.sub P).transpose).mulDense U) j k / (Y.nnz : ℚ))
  | _ => none

/-- The loop body iteration of gradient_descent (mf.py lines 159-166),
with the fuel counting the remaining iterations: compute the gradients
against the fixed Y, blend them into the velocities with momentum 0.9 and
weight (1 - 0.9), step the embeddings by the learning rate, and recurse on
the dataframe returned by gradient (whose Prediction column was
rewritten).  The periodic cost printing is I/O and changes no numeric
state that the loop reads. -/
def gdLoop (Y : SpMat) (K nU nM : ℕ) (lr : ℚ) :
    ℕ → DF × Mat × Mat × Mat × Mat → Option (DF × Mat × Mat × Mat × Mat)
  | 0, s => some s
  | Nat.succ n, (df, U, V, vU, vV) =>
    match gradient df Y K nU nM U V with
    | none => none
    | some (df', gU, gV) =>
      gdLoop Y K nU nM lr n
        (df',
         fun i k => U i k - lr * (0.9 * vU i k + (1 - 0.9) * gU i k),
         fun j k => V j k - lr * (0.9 * vV j k + (1 - 0.9) * gV j k),
         fun i k => 0.9 * vU i k + (1 - 0.9) * gU i k,
         fun j k => 0.9 * vV j k + (1 - 0.9) * gV j k)

/-- Embedding of gradient_descent (mf.py lines 148-167): build Y once
before the loop, start both velocities at zero, run the loop for the
requested number of iterations, return the final embeddings. -/
def gradient_descent (df : DF) (K nU nM : ℕ) (U V : Mat)
    (iterations : ℕ) (lr : ℚ) : Option (Mat × Mat) :=
  match df2matrix df nU nM with
  | none => none
  | some Y =>
    match gdLoop Y K nU nM lr iterations (df, U, V, fun _ _ => 0, fun _ _ => 0) with
    | none => none
    | some (_, U', V', _, _) => some (U', V')

/-- Modelled from the spec (sections 4.4, 4.6, claim C4): the prediction
matrix over the fixed pattern of the ratings table, used by the spec-side
training transition. -/
def predMatSpec (ts : List (ℕ × ℕ × ℚ)) (K : ℕ) (U V : Mat) (nU nM : ℕ) : SpMat :=
  { nrows := nU, ncols := nM, pat := (ts.map pairOf).toFinset,
    val := cooVal (ts.map (fun t => (t.1, t.2.1, dot K (U t.1) (V t.2.1)))) }

/-- Modelled from the spec (section 4.7, claim C4): one training
transition on the state (U, V, v_U, v_V) - gradients against the fixed Y,
velocity update v with coefficients 0.9 and 0.1, then embedding update by
the learning rate. -/
def gdStepSpec (ts : List (ℕ × ℕ × ℚ)) (Y : SpMat) (K nU nM : ℕ) (lr : ℚ)
    (s : Mat × Mat × Mat × Mat) : Mat × Mat × Mat × Mat :=
  let P := predMatSpec ts K s.1 s.2.1 nU nM
  let gU : Mat := fun i k => -2 * ((Y.sub P).mulDense s.2.1) i k / (Y.nnz : ℚ)
  let gV : Mat := fun j k => -2 * (((Y.sub P).transpose).mulDense s.1) j k / (Y.nnz : ℚ)
  let vU : Mat := fun i k => 0.9 * s.2.2.1 i k + 0.1 * gU i k
  let vV : Mat := fun j k => 0.9 * s.2.2.2 j k + 0.1 * gV j k
  (fun i k => s.1 i k - lr * vU i k, fun j k => s.2.1 j k - lr * vV j k, vU, vV)

/-- Modelled from the spec (section 4.7, claim C4): the whole training
run as the T-fold iterate of the transition from zero velocities,
projected to the final embeddings. -/
def specRun (ts : List (ℕ × ℕ × ℚ)) (Y : SpMat) (K nU nM : ℕ) (lr : ℚ)
    (U0 V0 : Mat) (T : ℕ) : Mat × Mat :=
  let s := (gdStepSpec ts Y K nU nM lr)^[T] (U0, V0, fun _ _ => 0, fun _ _ => 0)
  (s.1, s.2.1)

/-- The all-zero dense matrix, the initial velocity value. -/
def zeroM : Mat := fun _ _ => 0

section EncodingLemmas

variable {α : Type} {β : Type} [DecidableEq α] [DecidableEq β]

theorem mem_uniqueFrom (seen l : List α) (a : α) :
    a ∈ uniqueFrom seen l ↔ a ∈ l ∧ a ∉ seen := by
  induction l generalizing seen with
  | nil => simp [uniqueFrom]
  | cons x xs ih =>
    by_cases hx : x ∈ seen
    · rw [uniqueFrom, if_pos hx, ih]
      constructor
      · rintro ⟨h1, h2⟩
        exact ⟨List.mem_cons_of_mem _ h1, h2⟩
      · rintro ⟨h1, h2⟩
        rcases List.mem_cons.mp h1 with h | h
        · exact absurd (h ▸ hx) h2
        · exact ⟨h, h2⟩
    · rw [uniqueFrom, if_neg hx]
      simp only [List.mem_cons, ih]
      constructor
      · rintro (h | ⟨h1, h2⟩)
        · exact ⟨Or.inl h, h ▸ hx⟩
        · exact ⟨Or.inr h1, fun hs => h2 (Or.inr hs)⟩
      · rintro ⟨h1 | h1, h2⟩
        · exact Or.inl h1
        · by_cases ha : a = x
          · exact Or.inl ha
          · exact Or.inr ⟨h1, fun hs => hs.elim ha h2⟩

theorem mem_uniqueList (l : List α) (a : α) : a ∈ uniqueList l ↔ a ∈ l := by
  simp [uniqueList, mem_uniqueFrom]

theorem nodup_uniqueFrom (seen l : List α) : (uniqueFrom seen l).Nodup := by
  induction l generalizing seen with
  | nil => simp [uniqueFrom]
  | cons x xs ih =>
    by_cases hx : x ∈ seen
    · rw [uniqueFrom, if_pos hx]
      exact ih seen
    · rw [uniqueFrom, if_neg hx]
      refine List.Nodup.cons ?_ (ih _)
      intro hmem
      exact ((mem_uniqueFrom _ _ _).mp hmem).2 (List.mem_cons_self x seen)

theorem nodup_uniqueList (l : List α) : (uniqueList l).Nodup := nodup_uniqueFrom _ _

theorem uniqueFrom_congr (s1 s2 l : List α) (h : ∀ a : α, a ∈ s1 ↔ a ∈ s2) :
    uniqueFrom s1 l = uniqueFrom s2 l := by
  induction l generalizing s1 s2 with
  | nil => rfl
  | cons x xs ih =>
    by_cases hx : x ∈ s1
    · rw [uniqueFrom, if_pos hx, uniqueFrom, if_pos ((h x).mp hx)]
      exact ih s1 s2 h
    · rw [uniqueFrom, if_neg hx, uniqueFrom, if_neg (fun c => hx ((h x).mpr c))]
      refine congrArg _ (ih _ _ ?_)
      intro a
      simp [List.mem_cons, h a]

theorem uniqueFrom_append (s l1 l2 : List α) :
    uniqueFrom s (l1 ++ l2) = uniqueFrom s l1 ++ uniqueFrom (l1 ++ s) l2 := by
  induction l1 generalizing s with
  | nil => simp [uniqueFrom]
  | cons x xs ih =>
    by_cases hx : x ∈ s
    · rw [List.cons_append, uniqueFrom, if_pos hx, uniqueFrom, if_pos hx, ih s]
      refine congrArg _ (uniqueFrom_congr _ _ _ ?_)
      intro a
      constructor
      · intro ha
        rcases List.mem_append.mp ha with h | h
        · exact List.mem_append.mpr (Or.inl (List.mem_cons_of_mem _ h))
        · exact List.mem_append.mpr (Or.inr h)
      · intro ha
        rcases List.mem_append.mp ha with h | h
        · rcases List.mem_cons.mp h with h | h
          · exact List.mem_append.mpr (Or.inr (h ▸ hx))
          · exact List.mem_append.mpr (Or.inl h)
        · exact List.mem_append.mpr (Or.inr h)
    · rw [List.cons_append, uniqueFrom, if_neg hx, uniqueFrom, if_neg hx, ih (x :: s),
        List.cons_append]
      refine congrArg _ (congrArg _ (uniqueFrom_congr _ _ _ ?_))
      intro a
      constructor
      · intro ha
        rcases List.mem_append.mp ha with h | h
        · exact List.mem_cons_of_mem _ (List.mem_append.mpr (Or.inl h))
        · rcases List.mem_cons.mp h with h | h
          · exact h ▸ List.mem_cons_self x _
          · exact List.mem_cons_of_mem _ (List.mem_append.mpr (Or.inr h))
      · intro ha
        rcases List.mem_cons.mp ha with h | h
        · exact List.mem_append.mpr (Or.inr (h ▸ List.mem_cons_self x s))
        · rcases List.mem_append.mp h with h | h
          · exact List.mem_append.mpr (Or.inl h)
          · exact List.mem_append.mpr (Or.inr (List.mem_cons_of_mem _ h))

theorem idxIn_lt_length {l : List α} {x : α} (h : x ∈ l) : idxIn l x < l.length := by
  induction l with
  | nil => cases h
  | cons y ys ih =>
    by_cases hy : y = x
    · simp [idxIn, hy]
    · have hx : x ∈ ys := by
        rcases List.mem_cons.mp h with h2 | h2
        · exact absurd h2.symm hy
        · exact h2
      simpa [idxIn, hy] using Nat.succ_lt_succ (ih hx)

theorem getD_idxIn {l : List α} {x : α} (h : x ∈ l) (d : α) :
    l.getD (idxIn l x) d = x := by
  induction l with
  | nil => cases h
  | cons y ys ih =>
    by_cases hy : y = x
    · simp [idxIn, hy]
    · have hx : x ∈ ys := by
        rcases List.mem_cons.mp h with h2 | h2
        · exact absurd h2.symm hy
        · exact h2
      have hstep : idxIn (y :: ys) x = idxIn ys x + 1 := by simp [idxIn, hy]
      rw [hstep, List.getD_cons_succ]
      exact ih hx

theorem idxIn_append {A : List α} {x : α} (hx : x ∉ A) (B : List α) :
    idxIn (A ++ x :: B) x = A.length := by
  induction A with
  | nil => simp [idxIn]
  | cons a as ih =>
    have ha : a ≠ x := fun h => hx (h ▸ List.mem_cons_self a as)
    have has : x ∉ as := fun h => hx (List.mem_cons_of_mem _ h)
    simp [idxIn, ha, ih has]

end EncodingLemmas

/-- Claim C7: proc_col assigns each distinct key a unique index in
first-occurrence order starting at 0 (the index of a key is the number of
distinct keys occurring strictly before its first occurrence), translates
the input sequence through that map, returns the count of distinct keys,
and is deterministic (equal inputs give identical assignments). -/
theorem proc_col_encoding {α : Type} [DecidableEq α] (col : List α) :
    (∀ x ∈ col, ∃ i, name2idx col x = some i ∧ i < (proc_col col).2.2) ∧
    (∀ x ∈ col, ∀ y ∈ col, name2idx col x = name2idx col y → x = y) ∧
    (∀ l1 x l2, col = l1 ++ x :: l2 → x ∉ l1 →
      name2idx col x = some (uniqueList l1).length) ∧
    List.Forall₂ (fun x i => name2idx col x = some i) col (proc_col col).2.1 ∧
    (proc_col col).2.2 = col.toFinset.card ∧
    (∀ col2, col2 = col → proc_col col2 = proc_col col) := by
  have hmemu : ∀ x ∈ col, x ∈ uniqueList col := fun x hx => (mem_uniqueList col x).mpr hx
  refine ⟨?_, ?_, ?_, ?_, ?_, ?_⟩
  · intro x hx
    refine ⟨idxIn (uniqueList col) x, ?_, ?_⟩
    · rw [name2idx, if_pos (hmemu x hx)]
    · exact idxIn_lt_length (hmemu x hx)
  · intro x hx y hy h
    rw [name2idx, if_pos (hmemu x hx), name2idx, if_pos (hmemu y hy)] at h
    have h2 : idxIn (uniqueList col) x = idxIn (uniqueList col) y := Option.some.inj h
    have h3 := getD_idxIn (hmemu x hx) x
    have h4 := getD_idxIn (hmemu y hy) x
    rw [h2, h4] at h3
    exact h3.symm
  · intro l1 x l2 hcol hx1
    have hxcol : x ∈ col := by
      rw [hcol]
      exact List.mem_append.mpr (Or.inr (List.mem_cons_self x l2))
    have hsplit : uniqueList col = uniqueList l1 ++ x :: uniqueFrom (x :: l1) l2 := by
      rw [hcol, uniqueList, uniqueFrom_append, List.append_nil]
      rw [show uniqueFrom l1 (x :: l2) = x :: uniqueFrom (x :: l1) l2 from by
        rw [uniqueFrom, if_neg hx1]]
      rfl
    have hxu : x ∉ uniqueList l1 := fun h => hx1 ((mem_uniqueList l1 x).mp h)
    rw [name2idx, if_pos (hmemu x hxcol), hsplit, idxIn_append hxu]
  · rw [show (proc_col col).2.1 = col.map (fun x => idxIn (uniqueList col) x) from rfl]
    rw [List.forall₂_map_right_iff, List.forall₂_same]
    intro x hx
    rw [name2idx, if_pos (hmemu x hx)]
  · have h1 : (uniqueList col).toFinset = col.toFinset := by
      ext a
      simp [List.mem_toFinset, mem_uniqueList]
    rw [show (proc_col col).2.2 = (uniqueList col).length from rfl,
      ← List.toFinset_card_of_nodup (nodup_uniqueList col), h1]
  · intro col2 h
    rw [h]

/-- Claim C8: encoding the validation table against the training maps
raises no error for unseen keys - each output row is the translation of a
validation row whose user and movie key both occur in the training table;
each such validation row contributes its translation; rows with an unseen
key are silently dropped, so the output has exactly as many rows as the
validation rows whose keys are both seen. -/
theorem encode_new_data_filter {α β : Type} [DecidableEq α] [DecidableEq β]
    (dfVal dfTrain : List (α × β × ℚ)) :
    (∀ e ∈ encode_new_data dfVal dfTrain,
       ∃ r ∈ dfVal, r.1 ∈ dfTrain.map (fun s => s.1) ∧
         r.2.1 ∈ dfTrain.map (fun s => s.2.1) ∧
         e = (idxIn (uniqueList (dfTrain.map (fun s => s.1))) r.1,
              idxIn (uniqueList (dfTrain.map (fun s => s.2.1))) r.2.1, r.2.2)) ∧
    (∀ r ∈ dfVal, r.1 ∈ dfTrain.map (fun s => s.1) →
       r.2.1 ∈ dfTrain.map (fun s => s.2.1) →
       (idxIn (uniqueList (dfTrain.map (fun s => s.1))) r.1,
        idxIn (uniqueList (dfTrain.map (fun s => s.2.1))) r.2.1, r.2.2)
         ∈ encode_new_data dfVal dfTrain) ∧
    (encode_new_data dfVal dfTrain).length =
      (dfVal.filter (fun r => decide (r.1 ∈ dfTrain.map (fun s => s.1)) &&
         decide (r.2.1 ∈ dfTrain.map (fun s => s.2.1)))).length := by
  refine ⟨?_, ?_, ?_⟩
  · intro e he
    rw [encode_new_data, List.mem_map] at he
    obtain ⟨r, hr, he⟩ := he
    rw [List.mem_filter] at hr
    obtain ⟨hrval, hcond⟩ := hr
    simp only [Bool.and_eq_true, decide_eq_true_eq, mem_uniqueList] at hcond
    exact ⟨r, hrval, hcond.1, hcond.2, he.symm⟩
  · intro r hr h1 h2
    rw [encode_new_data, List.mem_map]
    refine ⟨r, ?_, rfl⟩
    rw [List.mem_filter]
    refine ⟨hr, ?_⟩
    simp only [Bool.and_eq_true, decide_eq_true_eq, mem_uniqueList]
    exact ⟨h1, h2⟩
  · rw [encode_new_data, List.length_map]
    congr 1
    apply List.filter_congr
    intro r hr
    simp only [Bool.and_eq_true, decide_eq_true_eq, mem_uniqueList]

theorem csc_matrix_eq_some (ts : List (ℕ × ℕ × ℚ)) (nr nc : ℕ)
    (h : ∀ t ∈ ts, t.1 < nr ∧ t.2.1 < nc) :
    csc_matrix ts nr nc =
      some { nrows := nr, ncols := nc, pat := (ts.map pairOf).toFinset,
             val := cooVal ts } := by
  have hb : (ts.all (fun t => decide (t.1 < nr) && decide (t.2.1 < nc))) = true := by
    rw [List.all_eq_true]
    intro t ht
    simp [(h t ht).1, (h t ht).2]
  rw [csc_matrix, if_pos hb]

theorem csc_matrix_eq_none (ts : List (ℕ × ℕ × ℚ)) (nr nc : ℕ)
    (h : ∃ t ∈ ts, nr ≤ t.1 ∨ nc ≤ t.2.1) :
    csc_matrix ts nr nc = none := by
  obtain ⟨t, ht, hcase⟩ := h
  have hb : ¬(ts.all (fun t => decide (t.1 < nr) && decide (t.2.1 < nc))) = true := by
    rw [List.all_eq_true]
    intro hall
    have h2 := hall t ht
    rcases hcase with hc | hc <;> simp [Nat.not_lt.mpr hc] at h2
  rw [csc_matrix, if_neg hb]

theorem sum_map_sub {γ : Type} (l : List γ) (g h : γ → ℚ) :
    (l.map (fun t => g t - h t)).sum = (l.map g).sum - (l.map h).sum := by
  induction l with
  | nil => simp
  | cons a as ih =>
    simp only [List.map_cons, List.sum_cons, ih]
    ring

theorem sum_map_mul_right {γ : Type} (l : List γ) (g : γ → ℚ) (c : ℚ) :
    (l.map g).sum * c = (l.map (fun t => g t * c)).sum := by
  induction l with
  | nil => simp
  | cons a as ih =>
    simp only [List.map_cons, List.sum_cons, add_mul, ih]

theorem sum_range_partition {γ : Type} (l : List γ) (key : γ → ℕ) (n : ℕ) (g : γ → ℚ)
    (hk : ∀ t ∈ l, key t < n) :
    ∑ j ∈ Finset.range n, ((l.filter (fun t => key t == j)).map g).sum
      = (l.map g).sum := by
  induction l with
  | nil => simp
  | cons t rest ih =>
    have hrest := ih (fun s hs => hk s (List.mem_cons_of_mem _ hs))
    have hsplit : ∀ j, ((List.filter (fun s => key s == j) (t :: rest)).map g).sum
        = ((rest.filter (fun s => key s == j)).map g).sum
          + (if key t = j then g t else 0) := by
      intro j
      by_cases h : key t = j
      · rw [List.filter_cons, if_pos (by simp [h]), List.map_cons, List.sum_cons, if_pos h]
        ring
      · rw [List.filter_cons, if_neg (by simp [h]), if_neg h, add_zero]
    rw [Finset.sum_congr rfl (fun j _ => hsplit j), Finset.sum_add_distrib, hrest]
    have hmem : key t ∈ Finset.range n :=
      Finset.mem_range.mpr (hk t (List.mem_cons_self t rest))
    rw [Finset.sum_ite_eq (Finset.range n) (key t) (fun _ => g t), if_pos hmem,
      List.map_cons, List.sum_cons, add_comm]

theorem rowsAt_eq_filter_user_movie (ts : List (ℕ × ℕ × ℚ)) (i j : ℕ) :
    rowsAt ts (i, j) = (ts.filter (fun t => t.1 == i)).filter (fun t => t.2.1 == j) := by
  rw [rowsAt, List.filter_filter]
  apply List.filter_congr
  intro t _
  have hbeq : (pairOf t == (i, j)) = (t.1 == i && t.2.1 == j) := rfl
  rw [hbeq, Bool.and_comm]

theorem rowsAt_eq_filter_movie_user (ts : List (ℕ × ℕ × ℚ)) (i j : ℕ) :
    rowsAt ts (i, j) = (ts.filter (fun t => t.2.1 == j)).filter (fun t => t.1 == i) := by
  rw [rowsAt, List.filter_filter]
  apply List.filter_congr
  intro t _
  have hbeq : (pairOf t == (i, j)) = (t.1 == i && t.2.1 == j) := rfl
  rw [hbeq]

theorem sum_cooVal_mul_user (ts : List (ℕ × ℕ × ℚ)) (g : (ℕ × ℕ × ℚ) → ℚ) (M : Mat)
    (nc : ℕ) (hm : ∀ t ∈ ts, t.2.1 < nc) (i k : ℕ) :
    ∑ j ∈ Finset.range nc, ((rowsAt ts (i, j)).map g).sum * M j k
      = ((ts.filter (fun t => t.1 == i)).map (fun t => g t * M t.2.1 k)).sum := by
  have hstep : ∀ j, ((rowsAt ts (i, j)).map g).sum * M j k
      = (((ts.filter (fun t => t.1 == i)).filter (fun t => t.2.1 == j)).map
          (fun t => g t * M t.2.1 k)).sum := by
    intro j
    rw [rowsAt_eq_filter_user_movie, sum_map_mul_right]
    refine congrArg List.sum (List.map_congr_left ?_)
    intro t ht
    have h2 : t.2.1 = j := by simpa using List.of_mem_filter ht
    rw [h2]
  rw [Finset.sum_congr rfl (fun j _ => hstep j)]
  exact sum_range_partition _ (fun t => t.2.1) nc _
    (fun t ht => hm t (List.mem_filter.mp ht).1)

theorem sum_cooVal_mul_movie (ts : List (ℕ × ℕ × ℚ)) (g : (ℕ × ℕ × ℚ) → ℚ) (M : Mat)
    (nr : ℕ) (hu : ∀ t ∈ ts, t.1 < nr) (j k : ℕ) :
    ∑ i ∈ Finset.range nr, ((rowsAt ts (i, j)).map g).sum * M i k
      = ((ts.filter (fun t => t.2.1 == j)).map (fun t => g t * M t.1 k)).sum := by
  have hstep : ∀ i, ((rowsAt ts (i, j)).map g).sum * M i k
      = (((ts.filter (fun t => t.2.1 == j)).filter (fun t => t.1 == i)).map
          (fun t => g t * M t.1 k)).sum := by
    intro i
    rw [rowsAt_eq_filter_movie_user, sum_map_mul_right]
    refine congrArg List.sum (List.map_congr_left ?_)
    intro t ht
    have h2 : t.1 = i := by simpa using List.of_mem_filter ht
    rw [h2]
  rw [Finset.sum_congr rfl (fun i _ => hstep i)]
  exact sum_range_partition _ (fun t => t.1) nr _
    (fun t ht => hu t (List.mem_filter.mp ht).1)

theorem rowsAt_map_pairPreserving (ts : List (ℕ × ℕ × ℚ))
    (f : (ℕ × ℕ × ℚ) → (ℕ × ℕ × ℚ)) (hf : ∀ t, pairOf (f t) = pairOf t) (p : ℕ × ℕ) :
    rowsAt (ts.map f) p = (rowsAt ts p).map f := by
  rw [rowsAt, rowsAt, List.filter_map]
  refine congrArg (List.map f) (List.filter_congr ?_)
  intro t _
  show (pairOf (f t) == p) = (pairOf t == p)
  rw [hf]

theorem sub_val_eq (df : DF) (K : ℕ) (U V : Mat) (p : ℕ × ℕ) :
    cooVal df.rows p - cooVal (predTriples K U V df) p
      = ((rowsAt df.rows p).map (fun t => t.2.2 - dot K (U t.1) (V t.2.1))).sum := by
  rw [cooVal, cooVal, predTriples,
    rowsAt_map_pairPreserving df.rows
      (fun t => (t.1, t.2.1, dot K (U t.1) (V t.2.1))) (fun t => rfl) p,
    List.map_map, sum_map_sub]
  rfl

theorem pairs_predTriples (df : DF) (K : ℕ) (U V : Mat) :
    (predTriples K U V df).map pairOf = df.rows.map pairOf := by
  rw [predTriples, List.map_map]
  rfl

theorem rowsAt_singleton {ts : List (ℕ × ℕ × ℚ)} (hnd : (ts.map pairOf).Nodup)
    {t : ℕ × ℕ × ℚ} (ht : t ∈ ts) : rowsAt ts (pairOf t) = [t] := by
  induction ts with
  | nil => cases ht
  | cons a rest ih =>
    rw [List.map_cons, List.nodup_cons] at hnd
    obtain ⟨ha, hrest⟩ := hnd
    rcases List.mem_cons.mp ht with h | h
    · subst h
      rw [rowsAt, List.filter_cons, if_pos (by simp)]
      have hnil : rest.filter (fun s => pairOf s == pairOf t) = [] := by
        rw [List.filter_eq_nil_iff]
        intro s hs
        simp only [beq_iff_eq]
        intro hEq
        exact ha (hEq ▸ List.mem_map_of_mem pairOf hs)
      rw [hnil]
    · have hne : pairOf a ≠ pairOf t :=
        fun hEq => ha (hEq ▸ List.mem_map_of_mem pairOf h)
      rw [rowsAt, List.filter_cons, if_neg (by simp [hne])]
      exact ih hrest h

theorem predTriples_in_range (df : DF) (K nU nM : ℕ) (U V : Mat)
    (hin : ∀ t ∈ df.rows, t.1 < nU ∧ t.2.1 < nM) :
    ∀ t ∈ predTriples K U V df, t.1 < nU ∧ t.2.1 < nM := by
  intro t ht
  rw [predTriples, List.mem_map] at ht
  obtain ⟨s, hs, hEq⟩ := ht
  subst hEq
  exact ⟨(hin s hs).1, (hin s hs).2⟩

/-- Claim C9: if any user or item index of the triple table reaches its
bound, the sparse build fails (scipy ValueError, modelled none) and no
partial matrix is returned. -/
theorem df2matrix_out_of_range_fails (df : DF) (nr nc : ℕ)
    (h : ∃ t ∈ df.rows, nr ≤ t.1 ∨ nc ≤ t.2.1) :
    df2matrix df nr nc = none := by
  rw [df2matrix]
  exact csc_matrix_eq_none df.rows nr nc h

/-- Witness for df2matrix_out_of_range_fails at the concrete table
[(2, 0, 5)] with bounds (1, 1): the build fails. -/
theorem df2matrix_out_of_range_fails_witness :
    df2matrix { rows := [(2, 0, 5)], predCol := none } 1 1 = none :=
  df2matrix_out_of_range_fails { rows := [(2, 0, 5)], predCol := none } 1 1
    ⟨(2, 0, 5), by decide, by decide⟩

/-- Claim C1 counterexample: on the table with the duplicated pair
[(0, 0, 5), (0, 0, 3)] the built matrix has nnz 1, not the row count 2,
and the stored value is the accumulated sum 8, not the last value 3:
scipy sums duplicate entries, it does not overwrite. -/
theorem df2matrix_duplicate_cex :
    ∃ Y, df2matrix { rows := [(0, 0, 5), (0, 0, 3)], predCol := none } 1 1 = some Y ∧
      Y.nnz ≠ 2 ∧ Y.val (0, 0) ≠ 3 ∧ Y.nnz = 1 ∧ Y.val (0, 0) = 8 := by
  have hval : cooVal [(0, 0, 5), (0, 0, 3)] (0, 0) = 8 := by
    norm_num [cooVal, rowsAt, pairOf, List.filter_cons]
  refine ⟨_, rfl, by decide, ?_, by decide, ?_⟩
  · show cooVal [(0, 0, 5), (0, 0, 3)] (0, 0) ≠ 3
    rw [hval]
    norm_num
  · exact hval

/-- Claim C1 amended: with in-range indices, nnz(Y) equals the number of
distinct (user, item) pairs in the table (hence the row count when the
pairs are duplicate-free), and the value stored at a position is the sum
of the values of all table rows at that position (duplicates accumulate
by summation, not last-write-wins). -/
theorem df2matrix_nnz_sum_amended (df : DF) (nr nc : ℕ)
    (hin : ∀ t ∈ df.rows, t.1 < nr ∧ t.2.1 < nc) :
    ∃ Y, df2matrix df nr nc = some Y ∧
      Y.nnz = (df.rows.map pairOf).toFinset.card ∧
      ((df.rows.map pairOf).Nodup → Y.nnz = df.rows.length) ∧
      ∀ p, Y.val p = ((rowsAt df.rows p).map (fun t => t.2.2)).sum := by
  refine ⟨{ nrows := nr, ncols := nc, pat := (df.rows.map pairOf).toFinset,
            val := cooVal df.rows }, ?_, rfl, ?_, fun p => rfl⟩
  · rw [df2matrix]
    exact csc_matrix_eq_some df.rows nr nc hin
  · intro hnd
    show (df.rows.map pairOf).toFinset.card = df.rows.length
    rw [List.toFinset_card_of_nodup hnd, List.length_map]

/-- Witness for df2matrix_nnz_sum_amended at the table
[(0, 1, 5), (1, 0, 3)] with bounds (2, 2): nnz is 2 (2 distinct pairs,
2 rows) and the stored values are the row values. -/
theorem df2matrix_nnz_sum_amended_witness :
    ∃ Y, df2matrix { rows := [(0, 1, 5), (1, 0, 3)], predCol := none } 2 2 = some Y ∧
      Y.nnz = ([((0 : ℕ), (1 : ℕ)), (1, 0)] : List (ℕ × ℕ)).toFinset.card ∧
      (([((0 : ℕ), (1 : ℕ)), (1, 0)] : List (ℕ × ℕ)).Nodup → Y.nnz = 2) ∧
      ∀ p, Y.val p =
        ((rowsAt [(0, 1, 5), (1, 0, 3)] p).map (fun t => t.2.2)).sum :=
  df2matrix_nnz_sum_amended { rows := [(0, 1, 5), (1, 0, 3)], predCol := none } 2 2
    (by decide)

/-- Claim C6: with in-range indices the masked predictor succeeds and the
stored pattern of the prediction matrix is exactly the set of
(user_index, item_index) pairs present in the table: no extra positions,
no missing ones. -/
theorem sparse_multiply_pattern_eq (df : DF) (K nU nM : ℕ) (U V : Mat)
    (hin : ∀ t ∈ df.rows, t.1 < nU ∧ t.2.1 < nM) :
    ∃ P, (sparse_multiply df K nU nM U V).2 = some P ∧
      P.pat = (df.rows.map pairOf).toFinset ∧
      ∀ p, p ∈ P.pat ↔ ∃ t ∈ df.rows, pairOf t = p := by
  have hcs := csc_matrix_eq_some (predTriples K U V df) nU nM
    (predTriples_in_range df K nU nM U V hin)
  rw [pairs_predTriples] at hcs
  refine ⟨{ nrows := nU, ncols := nM, pat := (df.rows.map pairOf).toFinset,
            val := cooVal (predTriples K U V df) }, ?_, rfl, ?_⟩
  · show (sparse_multiply df K nU nM U V).2 = some _
    rw [sparse_multiply]
    exact hcs
  · intro p
    simp only [List.mem_toFinset, List.mem_map]

/-- Witness for sparse_multiply_pattern_eq at the table
[(0, 1, 5), (1, 0, 3)] with 2 x 2 embeddings: the pattern is exactly the
two pairs of the table. -/
theorem sparse_multiply_pattern_eq_witness :
    ∃ P, (sparse_multiply { rows := [(0, 1, 5), (1, 0, 3)], predCol := none }
        2 2 2 (fun _ _ => 1) (fun _ _ => 1)).2 = some P ∧
      P.pat = ([((0 : ℕ), (1 : ℕ)), (1, 0)] : List (ℕ × ℕ)).toFinset ∧
      ∀ p, p ∈ P.pat ↔
        ∃ t ∈ ([(0, 1, 5), (1, 0, 3)] : List (ℕ × ℕ × ℚ)), pairOf t = p :=
  sparse_multiply_pattern_eq { rows := [(0, 1, 5), (1, 0, 3)], predCol := none }
    2 2 2 (fun _ _ => 1) (fun _ _ => 1) (by decide)

/-- Claim C10: the masked predictor writes the Prediction column (the
per-row dot products) into the caller's dataframe, overwriting any
existing column of that name, while leaving the data rows unchanged; and
the dataframe cost and gradient hand back to the caller is exactly that
mutated frame, so the column persists after those calls return. -/
theorem sparse_multiply_writes_prediction (df : DF) (Y : SpMat) (K nU nM : ℕ)
    (U V : Mat) :
    (sparse_multiply df K nU nM U V).1.rows = df.rows ∧
    (sparse_multiply df K nU nM U V).1.predCol = some (predictionCol K U V df) ∧
    (∀ df' q, cost (some df) K nU nM U V = some (some df', q) →
       df' = (sparse_multiply df K nU nM U V).1) ∧
    (∀ df' g, gradient df Y K nU nM U V = some (df', g) →
       df' = (sparse_multiply df K nU nM U V).1) := by
  refine ⟨rfl, rfl, ?_, ?_⟩
  · intro df' q h
    rcases hY : df2matrix df nU nM with _ | Ym
    · rw [cost, hY] at h
      cases h
    · rcases hc : csc_matrix (predTriples K U V df) nU nM with _ | Pm
      · rw [cost, hY, show sparse_multiply df K nU nM U V
            = ((sparse_multiply df K nU nM U V).1, csc_matrix (predTriples K U V df) nU nM)
            from rfl, hc] at h
        cases h
      · rw [cost, hY, show sparse_multiply df K nU nM U V
            = ((sparse_multiply df K nU nM U V).1, csc_matrix (predTriples K U V df) nU nM)
            from rfl, hc] at h
        exact ((Option.some.inj (Prod.mk.injEq _ _ _ _ ▸ Option.some.inj h).1).symm)
  · intro df' g h
    rcases hc : csc_matrix (predTriples K U V df) nU nM with _ | Pm
    · rw [gradient, show sparse_multiply df K nU nM U V
          = ((sparse_multiply df K nU nM U V).1, csc_matrix (predTriples K U V df) nU nM)
          from rfl, hc] at h
      cases h
    · rw [gradient, show sparse_multiply df K nU nM U V
          = ((sparse_multiply df K nU nM U V).1, csc_matrix (predTriples K U V df) nU nM)
          from rfl, hc] at h
      exact ((Prod.mk.injEq _ _ _ _ ▸ Option.some.inj h).1).symm

/-- Claim C2 evidence: on the empty ratings table both the cost evaluator
and the gradient computation return values instead of failing - there is
no EmptyDataset (or any other) error path.  The cost value is the total
division 0 / 0 of the embedding (Python evaluates 0.0 / 0 to NaN with only
a RuntimeWarning; no exception is raised and no error condition exists in
the code). -/
theorem cost_gradient_empty_no_error :
    cost (some { rows := [], predCol := none }) 1 1 1 zeroM zeroM
        = some (some { rows := [], predCol := some [] }, some (0 / 0)) ∧
    ∃ d g1 g2, gradient { rows := [], predCol := none }
        { nrows := 1, ncols := 1, pat := (∅ : Finset (ℕ × ℕ)), val := fun _ => 0 }
        1 1 1 zeroM zeroM = some (d, g1, g2) := by
  constructor
  · rfl
  · exact ⟨_, _, _, rfl⟩

/-- Claim C5: with in-range indices, duplicate-free (user, item) pairs and
a nonempty table, the cost evaluator returns the sum over the observed
positions of the squared difference between the rating and the dot product
of the corresponding embedding rows, divided by the number of observed
entries. -/
theorem cost_mse_formula (df : DF) (K nU nM : ℕ) (U V : Mat)
    (hin : ∀ t ∈ df.rows, t.1 < nU ∧ t.2.1 < nM)
    (hnd : (df.rows.map pairOf).Nodup)
    (hne : df.rows ≠ []) :
    cost (some df) K nU nM U V =
      some (some { rows := df.rows, predCol := some (predictionCol K U V df) },
        some ((df.rows.map (fun t => (t.2.2 - dot K (U t.1) (V t.2.1)) ^ 2)).sum
          / (df.rows.length : ℚ))) := by
  have hY := csc_matrix_eq_some df.rows nU nM hin
  have hP := csc_matrix_eq_some (predTriples K U V df) nU nM
    (predTriples_in_range df K nU nM U V hin)
  rw [pairs_predTriples] at hP
  have hnnz : (SpMat.mk nU nM (df.rows.map pairOf).toFinset
      (cooVal df.rows)).nnz = df.rows.length := by
    show (df.rows.map pairOf).toFinset.card = df.rows.length
    rw [List.toFinset_card_of_nodup hnd, List.length_map]
  have hsum : ∑ p ∈ ((df.rows.map pairOf).toFinset ∪ (df.rows.map pairOf).toFinset),
      (cooVal df.rows p - cooVal (predTriples K U V df) p) ^ 2
      = (df.rows.map (fun t => (t.2.2 - dot K (U t.1) (V t.2.1)) ^ 2)).sum := by
    rw [Finset.union_self,
      Finset.sum_congr rfl (fun p _ => by rw [sub_val_eq df K U V p]),
      List.sum_toFinset _ hnd, List.map_map]
    refine congrArg List.sum (List.map_congr_left ?_)
    intro t ht
    show ((rowsAt df.rows (pairOf t)).map
        (fun s => s.2.2 - dot K (U s.1) (V s.2.1))).sum ^ 2 = _
    rw [rowsAt_singleton hnd ht]
    simp
  have hv : SpMat.sumAll (SpMat.power2 (SpMat.sub
        (SpMat.mk nU nM (df.rows.map pairOf).toFinset (cooVal df.rows))
        (SpMat.mk nU nM (df.rows.map pairOf).toFinset
          (cooVal (predTriples K U V df)))))
      / (((SpMat.mk nU nM (df.rows.map pairOf).toFinset
          (cooVal df.rows)).nnz : ℕ) : ℚ)
      = (df.rows.map (fun t => (t.2.2 - dot K (U t.1) (V t.2.1)) ^ 2)).sum
        / (df.rows.length : ℚ) := by
    rw [hnnz]
    exact congrArg (fun s => s / ((df.rows.length : ℕ) : ℚ)) hsum
  rw [cost, df2matrix, hY, show sparse_multiply df K nU nM U V
      = ({ rows := df.rows, predCol := some (predictionCol K U V df) },
         csc_matrix (predTriples K U V df) nU nM) from rfl, hP]
  exact congrArg (fun q =>
    some (some (DF.mk df.rows (some (predictionCol K U V df))), some q)) hv

/-- Witness for cost_mse_formula: the hand-computed example with observed
entries (0,0) = 5 and (1,1) = 3 and 2 x 2 identity embeddings gives cost
((5-1)^2 + (3-1)^2) / 2 = 10. -/
theorem cost_mse_formula_witness :
    cost (some (DF.mk [(0, 0, 5), (1, 1, 3)] none)) 2 2 2
        (fun i k => if i = k then 1 else 0) (fun i k => if i = k then 1 else 0)
      = some (some (DF.mk [(0, 0, 5), (1, 1, 3)]
          (some (predictionCol 2 (fun i k => if i = k then 1 else 0)
            (fun i k => if i = k then 1 else 0)
            (DF.mk [(0, 0, 5), (1, 1, 3)] none)))),
        some 10) := by
  have h := cost_mse_formula (DF.mk [(0, 0, 5), (1, 1, 3)] none) 2 2 2
    (fun i k => if i = k then 1 else 0) (fun i k => if i = k then 1 else 0)
    (by decide) (by decide) (by decide)
  rw [h]
  norm_num [dot, Finset.sum_range_succ, Finset.sum_range_zero]

theorem gradient_eq_of_sm (df df' : DF) (Y P : SpMat) (K nU nM : ℕ) (U V : Mat)
    (h : sparse_multiply df K nU nM U V = (df', some P)) :
    gradient df Y K nU nM U V = some (df',
      fun i k => -2 * ((Y.sub P).mulDense V) i k / (Y.nnz : ℚ),
      fun j k => -2 * (((Y.sub P).transpose).mulDense U) j k / (Y.nnz : ℚ)) := by
  rw [gradient, h]

/-- Claim C3: with in-range indices and a nonempty observed pattern, the
gradient computation succeeds and returns grad_U and grad_V equal to
-2 (R V) / nnz(Y) and -2 (transpose R) U / nnz(Y) with R the residual on
the observed pattern - spelled out row-wise: the (i, k) entry of grad_U is
-2 / nnz(Y) times the sum over the table rows of user i of the residual of
that row times the k-th factor of the movie embedding row, and
symmetrically for grad_V; in particular a user (or item) appearing in no
table row has an all-zero gradient row, and no regularization term is
added. -/
theorem gradient_formula_observed (df : DF) (Y : SpMat) (K nU nM : ℕ) (U V : Mat)
    (hin : ∀ t ∈ df.rows, t.1 < nU ∧ t.2.1 < nM)
    (hY : df2matrix df nU nM = some Y)
    (hpos : 0 < Y.nnz) :
    ∃ df' gU gV, gradient df Y K nU nM U V = some (df', gU, gV) ∧
      (∀ i k, gU i k = -2 *
        ((df.rows.filter (fun t => t.1 == i)).map
          (fun t => (t.2.2 - dot K (U t.1) (V t.2.1)) * V t.2.1 k)).sum
        / (Y.nnz : ℚ)) ∧
      (∀ j k, gV j k = -2 *
        ((df.rows.filter (fun t => t.2.1 == j)).map
          (fun t => (t.2.2 - dot K (U t.1) (V t.2.1)) * U t.1 k)).sum
        / (Y.nnz : ℚ)) ∧
      (∀ i, (∀ t ∈ df.rows, t.1 ≠ i) → ∀ k, gU i k = 0) ∧
      (∀ j, (∀ t ∈ df.rows, t.2.1 ≠ j) → ∀ k, gV j k = 0) := by
  rw [df2matrix, csc_matrix_eq_some df.rows nU nM hin] at hY
  obtain rfl : (⟨nU, nM, (df.rows.map pairOf).toFinset, cooVal df.rows⟩ : SpMat) = Y :=
    Option.some.inj hY
  have hP := csc_matrix_eq_some (predTriples K U V df) nU nM
    (predTriples_in_range df K nU nM U V hin)
  have hsm : sparse_multiply df K nU nM U V
      = (DF.mk df.rows (some (predictionCol K U V df)),
         some (SpMat.mk nU nM ((predTriples K U V df).map pairOf).toFinset
           (cooVal (predTriples K U V df)))) := by
    rw [sparse_multiply, hP]
  have hg := gradient_eq_of_sm df _
    (SpMat.mk nU nM (df.rows.map pairOf).toFinset (cooVal df.rows)) _ K nU nM U V hsm
  have hU : ∀ i k, (((SpMat.mk nU nM (df.rows.map pairOf).toFinset
        (cooVal df.rows)).sub (SpMat.mk nU nM
        ((predTriples K U V df).map pairOf).toFinset
        (cooVal (predTriples K U V df)))).mulDense V) i k
      = ((df.rows.filter (fun t => t.1 == i)).map
          (fun t => (t.2.2 - dot K (U t.1) (V t.2.1)) * V t.2.1 k)).sum := by
    intro i k
    have hval : ∀ j, cooVal df.rows (i, j) - cooVal (predTriples K U V df) (i, j)
        = ((rowsAt df.rows (i, j)).map
            (fun t => t.2.2 - dot K (U t.1) (V t.2.1))).sum :=
      fun j => sub_val_eq df K U V (i, j)
    calc ∑ j ∈ Finset.range nM,
          (cooVal df.rows (i, j) - cooVal (predTriples K U V df) (i, j)) * V j k
        = ∑ j ∈ Finset.range nM,
            ((rowsAt df.rows (i, j)).map
              (fun t => t.2.2 - dot K (U t.1) (V t.2.1))).sum * V j k :=
          Finset.sum_congr rfl (fun j _ => by rw [hval j])
      _ = ((df.rows.filter (fun t => t.1 == i)).map
            (fun t => (t.2.2 - dot K (U t.1) (V t.2.1)) * V t.2.1 k)).sum :=
          sum_cooVal_mul_user df.rows _ V nM (fun t ht => (hin t ht).2) i k
  have hVm : ∀ j k, ((((SpMat.mk nU nM (df.rows.map pairOf).toFinset
        (cooVal df.rows)).sub (SpMat.mk nU nM
        ((predTriples K U V df).map pairOf).toFinset
        (cooVal (predTriples K U V df)))).transpose).mulDense U) j k
      = ((df.rows.filter (fun t => t.2.1 == j)).map
          (fun t => (t.2.2 - dot K (U t.1) (V t.2.1)) * U t.1 k)).sum := by
    intro j k
    have hval : ∀ i, cooVal df.rows (i, j) - cooVal (predTriples K U V df) (i, j)
        = ((rowsAt df.rows (i, j)).map
            (fun t => t.2.2 - dot K (U t.1) (V t.2.1))).sum :=
      fun i => sub_val_eq df K U V (i, j)
    calc ∑ i ∈ Finset.range nU,
          (cooVal df.rows (i, j) - cooVal (predTriples K U V df) (i, j)) * U i k
        = ∑ i ∈ Finset.range nU,
            ((rowsAt df.rows (i, j)).map
              (fun t => t.2.2 - dot K (U t.1) (V t.2.1))).sum * U i k :=
          Finset.sum_congr rfl (fun i _ => by rw [hval i])
      _ = ((df.rows.filter (fun t => t.2.1 == j)).map
            (fun t => (t.2.2 - dot K (U t.1) (V t.2.1)) * U t.1 k)).sum :=
          sum_cooVal_mul_movie df.rows _ U nU (fun t ht => (hin t ht).1) j k
  refine ⟨_, _, _, hg, fun i k => ?_, fun j k => ?_,
    fun i hno k => ?_, fun j hno k => ?_⟩
  · show -2 * _ / _ = _
    rw [hU i k]
  · show -2 * _ / _ = _
    rw [hVm j k]
  · show -2 * _ / _ = (0 : ℚ)
    rw [hU i k, List.filter_eq_nil_iff.mpr (fun t ht => by simp [hno t ht])]
    simp
  · show -2 * _ / _ = (0 : ℚ)
    rw [hVm j k, List.filter_eq_nil_iff.mpr (fun t ht => by simp [hno t ht])]
    simp

/-- Witness for gradient_formula_observed on the one-row table [(0, 0, 2)]
with 1 x 1 embeddings: the gradient computation succeeds and user 1 and
item 1, which have no observed ratings, get zero gradient entries. -/
theorem gradient_formula_observed_witness :
    ∃ df' gU gV, gradient (DF.mk [(0, 0, 2)] none)
        (SpMat.mk 1 1 ((([(0, 0, 2)] : List (ℕ × ℕ × ℚ)).map pairOf).toFinset)
          (cooVal [(0, 0, 2)])) 1 1 1 (fun _ _ => 1) (fun _ _ => 1)
      = some (df', gU, gV) ∧ gU 1 0 = 0 ∧ gV 1 0 = 0 := by
  obtain ⟨df', gU, gV, hg, _, _, h4, h5⟩ :=
    gradient_formula_observed (DF.mk [(0, 0, 2)] none) _ 1 1 1
      (fun _ _ => 1) (fun _ _ => 1) (by decide) rfl (by decide)
  exact ⟨df', gU, gV, hg, h4 1 (by decide) 0, h5 1 (by decide) 0⟩

theorem gdStepSpec_eq_code (ts : List (ℕ × ℕ × ℚ)) (Y Pc : SpMat) (K nU nM : ℕ)
    (lr : ℚ) (U V vU vV : Mat)
    (hPc : Pc = predMatSpec ts K U V nU nM) :
    ((fun i k => U i k - lr * (0.9 * vU i k + (1 - 0.9) *
        (-2 * ((Y.sub Pc).mulDense V) i k / (Y.nnz : ℚ)))),
     (fun j k => V j k - lr * (0.9 * vV j k + (1 - 0.9) *
        (-2 * (((Y.sub Pc).transpose).mulDense U) j k / (Y.nnz : ℚ)))),
     (fun i k => 0.9 * vU i k + (1 - 0.9) *
        (-2 * ((Y.sub Pc).mulDense V) i k / (Y.nnz : ℚ))),
     (fun j k => 0.9 * vV j k + (1 - 0.9) *
        (-2 * (((Y.sub Pc).transpose).mulDense U) j k / (Y.nnz : ℚ))))
    = gdStepSpec ts Y K nU nM lr (U, V, vU, vV) := by
  subst hPc
  rw [show (1 - 0.9 : ℚ) = 0.1 from by norm_num]
  simp only [gdStepSpec]

theorem gdLoop_spec (df0 : DF) (Y : SpMat) (K nU nM : ℕ) (lr : ℚ)
    (hin : ∀ t ∈ df0.rows, t.1 < nU ∧ t.2.1 < nM) :
    ∀ (T : ℕ) (df : DF) (U V vU vV : Mat), df.rows = df0.rows →
      ∃ df', gdLoop Y K nU nM lr T (df, U, V, vU, vV)
        = some (df', (gdStepSpec df0.rows Y K nU nM lr)^[T] (U, V, vU, vV)) := by
  intro T
  induction T with
  | zero =>
    intro df U V vU vV hrows
    exact ⟨df, rfl⟩
  | succ n ih =>
    intro df U V vU vV hrows
    have hinin : ∀ t ∈ df.rows, t.1 < nU ∧ t.2.1 < nM := by
      rw [hrows]
      exact hin
    have hP := csc_matrix_eq_some (predTriples K U V df) nU nM
      (predTriples_in_range df K nU nM U V hinin)
    have hsm : sparse_multiply df K nU nM U V
        = (DF.mk df.rows (some (predictionCol K U V df)),
           some (SpMat.mk nU nM ((predTriples K U V df).map pairOf).toFinset
             (cooVal (predTriples K U V df)))) := by
      rw [sparse_multiply, hP]
    have hg := gradient_eq_of_sm df _ Y _ K nU nM U V hsm
    have hPeq : (SpMat.mk nU nM ((predTriples K U V df).map pairOf).toFinset
        (cooVal (predTriples K U V df))) = predMatSpec df0.rows K U V nU nM := by
      rw [predMatSpec, pairs_predTriples, predTriples, hrows]
    obtain ⟨df', hrec⟩ := ih (DF.mk df.rows (some (predictionCol K U V df)))
      (fun i k => U i k - lr * (0.9 * vU i k + (1 - 0.9) *
        (-2 * ((Y.sub (SpMat.mk nU nM ((predTriples K U V df).map pairOf).toFinset
          (cooVal (predTriples K U V df)))).mulDense V) i k / (Y.nnz : ℚ))))
      (fun j k => V j k - lr * (0.9 * vV j k + (1 - 0.9) *
        (-2 * (((Y.sub (SpMat.mk nU nM ((predTriples K U V df).map pairOf).toFinset
          (cooVal (predTriples K U V df)))).transpose).mulDense U) j k / (Y.nnz : ℚ))))
      (fun i k => 0.9 * vU i k + (1 - 0.9) *
        (-2 * ((Y.sub (SpMat.mk nU nM ((predTriples K U V df).map pairOf).toFinset
          (cooVal (predTriples K U V df)))).mulDense V) i k / (Y.nnz : ℚ)))
      (fun j k => 0.9 * vV j k + (1 - 0.9) *
        (-2 * (((Y.sub (SpMat.mk nU nM ((predTriples K U V df).map pairOf).toFinset
          (cooVal (predTriples K U V df)))).transpose).mulDense U) j k / (Y.nnz : ℚ)))
      hrows
    refine ⟨df', ?_⟩
    rw [gdLoop, hg, Function.iterate_succ_apply,
      ← gdStepSpec_eq_code df0.rows Y _ K nU nM lr U V vU vV hPeq]
    exact hrec

/-- Claim C4: the trainer builds Y once before the loop, starts from zero
velocities, and the embeddings it returns are exactly the first two
components of the T-fold iterate of the spec transition (gradients against
that fixed Y, velocity update with coefficients 0.9 and 0.1, embedding
step by the learning rate); in particular T = 0 returns the inputs and the
loop runs exactly T transitions with no early stop. -/
theorem gradient_descent_refines_momentum (df : DF) (K nU nM : ℕ) (U0 V0 : Mat)
    (T : ℕ) (lr : ℚ)
    (hin : ∀ t ∈ df.rows, t.1 < nU ∧ t.2.1 < nM) :
    ∃ Y, df2matrix df nU nM = some Y ∧
      gradient_descent df K nU nM U0 V0 T lr
        = some (specRun df.rows Y K nU nM lr U0 V0 T) := by
  have hY := csc_matrix_eq_some df.rows nU nM hin
  refine ⟨SpMat.mk nU nM (df.rows.map pairOf).toFinset (cooVal df.rows),
    by rw [df2matrix, hY], ?_⟩
  obtain ⟨df', hloop⟩ := gdLoop_spec df
    (SpMat.mk nU nM (df.rows.map pairOf).toFinset (cooVal df.rows)) K nU nM lr hin
    T df U0 V0 (fun _ _ => 0) (fun _ _ => 0) rfl
  have hfin : (match gdLoop (SpMat.mk nU nM (df.rows.map pairOf).toFinset
        (cooVal df.rows)) K nU nM lr T
        (df, U0, V0, (fun _ _ => 0 : Mat), (fun _ _ => 0 : Mat)) with
      | none => none
      | some (_, U', V', _, _) => some (U', V'))
      = some (specRun df.rows (SpMat.mk nU nM (df.rows.map pairOf).toFinset
          (cooVal df.rows)) K nU nM lr U0 V0 T) := by
    rw [hloop]
    rfl
  rw [gradient_descent, df2matrix, hY]
  exact hfin

/-- Witness for gradient_descent_refines_momentum on the one-row table
[(0, 0, 2)] with 1 x 1 embeddings, one iteration and learning rate 1. -/
theorem gradient_descent_refines_momentum_witness :
    ∃ Y, df2matrix (DF.mk [(0, 0, 2)] none) 1 1 = some Y ∧
      gradient_descent (DF.mk [(0, 0, 2)] none) 1 1 1
          (fun _ _ => 1) (fun _ _ => 1) 1 1
        = some (specRun [(0, 0, 2)] Y 1 1 1 1 (fun _ _ => 1) (fun _ _ => 1) 1) :=
  gradient_descent_refines_momentum (DF.mk [(0, 0, 2)] none) 1 1 1
    (fun _ _ => 1) (fun _ _ => 1) 1 1 (by decide)

/-- Witness for proc_col_encoding on the column [5, 7, 5]: the key 7,
whose first occurrence is preceded by one distinct key, gets index 1, and
the distinct-key count is 2. -/
theorem proc_col_encoding_witness :
    name2idx ([5, 7, 5] : List ℕ) 7 = some 1 ∧
    (proc_col ([5, 7, 5] : List ℕ)).2.2 = 2 := by
  obtain ⟨-, -, h3, -, h5, -⟩ := proc_col_encoding ([5, 7, 5] : List ℕ)
  constructor
  · exact h3 [5] 7 [5] rfl (by decide)
  · rw [h5]
    decide

/-- Witness for encode_new_data_filter: training table with the single
user key 1, validation table with user keys 1 and 3; the row of the
unseen user 3 is dropped, so the encoded validation table has one row. -/
theorem encode_new_data_filter_witness :
    (encode_new_data [((1 : ℕ), (10 : ℕ), (4 : ℚ)), (3, 10, 2)]
      [((1 : ℕ), (10 : ℕ), (5 : ℚ))]).length = 1 := by
  obtain ⟨-, -, h3⟩ := encode_new_data_filter
    [((1 : ℕ), (10 : ℕ), (4 : ℚ)), (3, 10, 2)] [((1 : ℕ), (10 : ℕ), (5 : ℚ))]
  rw [h3]
  decide

/-- Witness for sparse_multiply_writes_prediction on a one-row frame that
already carries a Prediction column [99]: the call overwrites it with the
freshly computed dot products. -/
theorem sparse_multiply_writes_prediction_witness :
    (sparse_multiply (DF.mk [((0 : ℕ), (0 : ℕ), (2 : ℚ))] (some [99])) 1 1 1
        (fun _ _ => 1) (fun _ _ => 1)).1.predCol
      = some (predictionCol 1 (fun _ _ => 1) (fun _ _ => 1)
          (DF.mk [((0 : ℕ), (0 : ℕ), (2 : ℚ))] (some [99]))) :=
  (sparse_multiply_writes_prediction (DF.mk [((0 : ℕ), (0 : ℕ), (2 : ℚ))] (some [99]))
    (SpMat.mk 1 1 ∅ (fun _ => 0)) 1 1 1 (fun _ _ => 1) (fun _ _ => 1)).2.1

end MF
